import Mathlib

/-!
Shallow embedding of the `solana-utils` CLI (`src/cli/command.rs`) and proofs
about its keypair codec, keypair-transform handler and transaction-send
handler.  Keypairs are modelled as their 64 raw bytes; the established
textual encodings (base-58, the JSON byte-array text, base-64) are modelled
concretely; the opaque externals (the transaction wire format, the signing
primitive, the file system and the remote node) are parameters of the
embedded handlers.
-/

namespace SolanaUtils

/-- Little-endian base-`b` digits of `n`, with explicit fuel so the
definition is structurally recursive and reduces in the kernel. -/
def toDigitsAux (b : Nat) : Nat → Nat → List Nat
  | _, 0 => []
  | 0, _ + 1 => []
  | fuel + 1, n + 1 => (n + 1) % b :: toDigitsAux b fuel ((n + 1) / b)

/-- Minimal little-endian base-`b` digits of `n`. -/
def natToDigitsLE (b n : Nat) : List Nat :=
  toDigitsAux b n n

/-- Big-endian digit-list evaluation `d0*b^(k-1) + ... + dk`, the
accumulation used by the decoding loops. -/
def digitsToNatBE (b : Nat) (ds : List Nat) : Nat :=
  ds.foldl (fun acc d => acc * b + d) 0

theorem toDigitsAux_eq_digits (b : Nat) (hb : 2 ≤ b) :
    ∀ fuel n, n ≤ fuel → toDigitsAux b fuel n = Nat.digits b n := by
  intro fuel
  induction fuel with
  | zero =>
      intro n hn
      have hn0 : n = 0 := Nat.le_zero.mp hn
      subst hn0
      simp [toDigitsAux]
  | succ f ih =>
      intro n hn
      match n with
      | 0 => simp [toDigitsAux]
      | k + 1 =>
          have hdiv : (k + 1) / b ≤ f := by
            have h1 : (k + 1) / b < k + 1 := Nat.div_lt_self (Nat.succ_pos k) (by omega)
            omega
          have hunf : toDigitsAux b (f + 1) (k + 1)
              = (k + 1) % b :: toDigitsAux b f ((k + 1) / b) := rfl
          rw [hunf, ih _ hdiv, Nat.digits_def' (by omega : 1 < b) (Nat.succ_pos k)]

theorem natToDigitsLE_eq_digits (b n : Nat) (hb : 2 ≤ b) :
    natToDigitsLE b n = Nat.digits b n :=
  toDigitsAux_eq_digits b hb n n le_rfl

theorem foldl_mul_add (b : Nat) :
    ∀ (ds : List Nat) (acc : Nat),
      ds.foldl (fun acc d => acc * b + d) acc
        = acc * b ^ ds.length + Nat.ofDigits b ds.reverse := by
  intro ds
  induction ds with
  | nil => intro acc; simp [Nat.ofDigits]
  | cons d ds ih =>
      intro acc
      simp only [List.foldl_cons, List.length_cons, List.reverse_cons]
      rw [ih, Nat.ofDigits_append]
      simp only [Nat.ofDigits_cons, Nat.ofDigits_nil, List.length_reverse]
      ring

theorem digitsToNatBE_eq_ofDigits (b : Nat) (ds : List Nat) :
    digitsToNatBE b ds = Nat.ofDigits b ds.reverse := by
  unfold digitsToNatBE
  rw [foldl_mul_add]
  simp

theorem digitsToNatBE_natToDigitsLE (b n : Nat) (hb : 2 ≤ b) :
    digitsToNatBE b (natToDigitsLE b n).reverse = n := by
  rw [digitsToNatBE_eq_ofDigits, List.reverse_reverse,
    natToDigitsLE_eq_digits b n hb, Nat.ofDigits_digits]

theorem natToDigitsLE_digitsToNatBE (b : Nat) (hb : 2 ≤ b) (l : List Nat)
    (hlt : ∀ x ∈ l, x < b) (hhead : ∀ c cs, l = c :: cs → c ≠ 0) :
    (natToDigitsLE b (digitsToNatBE b l)).reverse = l := by
  rw [digitsToNatBE_eq_ofDigits, natToDigitsLE_eq_digits _ _ hb]
  have h1 : ∀ x ∈ l.reverse, x < b := fun x hx => hlt x (List.mem_reverse.mp hx)
  have h2 : ∀ (h : l.reverse ≠ []), l.reverse.getLast h ≠ 0 := by
    intro h
    cases l with
    | nil => simp at h
    | cons c cs =>
        have hc : c ≠ 0 := hhead c cs rfl
        have : (c :: cs).reverse.getLast h = c := by
          simp only [List.reverse_cons]
          exact List.getLast_append_singleton cs.reverse
        rw [this]
        exact hc
  rw [Nat.digits_ofDigits b (by omega) l.reverse h1 h2, List.reverse_reverse]

theorem digitsToNatBE_replicate_zero (b : Nat) :
    ∀ (z : Nat) (l : List Nat),
      digitsToNatBE b (List.replicate z 0 ++ l) = digitsToNatBE b l := by
  intro z
  induction z with
  | zero => intro l; simp
  | succ k ih =>
      intro l
      simp only [List.replicate_succ, List.cons_append]
      unfold digitsToNatBE
      simp only [List.foldl_cons, Nat.zero_mul, Nat.add_zero]
      exact ih l

theorem digitsToNatBE_cons_pos (b c : Nat) (cs : List Nat) (hb : 2 ≤ b) (hc : c ≠ 0) :
    digitsToNatBE b (c :: cs) ≠ 0 := by
  unfold digitsToNatBE
  simp only [List.foldl_cons, Nat.zero_mul, Nat.zero_add]
  rw [foldl_mul_add]
  have hpow : 0 < b ^ cs.length := Nat.pos_pow_of_pos cs.length (by omega)
  have hcb : 0 < c * b ^ cs.length := Nat.mul_pos (Nat.pos_of_ne_zero hc) hpow
  omega

theorem dropWhile_head_not (p : α → Bool) :
    ∀ (l : List α) (c : α) (cs : List α), l.dropWhile p = c :: cs → p c = false := by
  intro l
  induction l with
  | nil => intro c cs h; simp [List.dropWhile] at h
  | cons a l ih =>
      intro c cs h
      by_cases ha : p a
      · rw [List.dropWhile_cons_of_pos ha] at h
        exact ih c cs h
      · rw [List.dropWhile_cons_of_neg ha] at h
        cases h
        exact Bool.of_not_eq_true ha

theorem takeWhile_decomp (p : α → Bool) (a : α) (hone : ∀ x, p x = true → x = a) :
    ∀ l : List α, l = List.replicate (l.takeWhile p).length a ++ l.dropWhile p := by
  intro l
  induction l with
  | nil => simp
  | cons c cs ih =>
      by_cases hc : p c
      · rw [List.takeWhile_cons_of_pos hc, List.dropWhile_cons_of_pos hc]
        simp only [List.length_cons, List.replicate_succ, List.cons_append]
        rw [hone c hc]
        exact congrArg (a :: ·) ih
      · rw [List.takeWhile_cons_of_neg hc, List.dropWhile_cons_of_neg hc]
        simp

theorem takeWhile_replicate_append (p : α → Bool) (a : α) (ha : p a = true) :
    ∀ (z : Nat) (l : List α),
      (List.replicate z a ++ l).takeWhile p = List.replicate z a ++ l.takeWhile p := by
  intro z
  induction z with
  | zero => intro l; simp
  | succ k ih =>
      intro l
      simp only [List.replicate_succ, List.cons_append]
      rw [List.takeWhile_cons_of_pos ha, ih]

/-- The base-58 alphabet used by the `bs58` crate (and hence by
`Keypair::from_base58_string` / `to_base58_string`). -/
def b58Alphabet : List Char :=
  "123456789ABCDEFGHJKLMNPQRSTUVWXYZabcdefghijkmnopqrstuvwxyz".data

def b58DigitChar (d : Nat) : Char := b58Alphabet.getD d '1'

def b58IdxAux : List Char → Char → Nat → Option Nat
  | [], _, _ => none
  | a :: rest, c, i => if a == c then some i else b58IdxAux rest c (i + 1)

/-- Index of a character in the base-58 alphabet, `none` for characters
outside the alphabet. -/
def b58CharDigit (c : Char) : Option Nat := b58IdxAux b58Alphabet c 0

/-- Digit values of a whole string; `none` as soon as one character is not
in the alphabet (the `bs58` decode error). -/
def b58Digits : List Char → Option (List Nat)
  | [] => some []
  | c :: cs =>
      match b58CharDigit c, b58Digits cs with
      | some d, some ds => some (d :: ds)
      | _, _ => none

theorem b58CharDigit_b58DigitChar : ∀ d, d < 58 → b58CharDigit (b58DigitChar d) = some d := by
  decide

theorem b58DigitChar_ne_one : ∀ d, d < 58 → d ≠ 0 → b58DigitChar d ≠ '1' := by
  decide

theorem b58CharDigit_one : b58CharDigit '1' = some 0 := by decide

theorem b58Digits_append_some :
    ∀ (l1 l2 : List Char) (d1 d2 : List Nat),
      b58Digits l1 = some d1 → b58Digits l2 = some d2 →
      b58Digits (l1 ++ l2) = some (d1 ++ d2) := by
  intro l1
  induction l1 with
  | nil =>
      intro l2 d1 d2 h1 h2
      simp only [b58Digits] at h1
      cases h1
      simpa using h2
  | cons c cs ih =>
      intro l2 d1 d2 h1 h2
      simp only [b58Digits] at h1
      cases hc : b58CharDigit c with
      | none => rw [hc] at h1; simp at h1
      | some d =>
          rw [hc] at h1
          cases hcs : b58Digits cs with
          | none => rw [hcs] at h1; simp at h1
          | some ds =>
              rw [hcs] at h1
              simp only [Option.some.injEq] at h1
              subst h1
              simp only [List.cons_append, b58Digits, List.append_eq, hc, ih l2 ds d2 hcs h2]

theorem b58Digits_replicate_one :
    ∀ z : Nat, b58Digits (List.replicate z '1') = some (List.replicate z 0) := by
  intro z
  induction z with
  | zero => rfl
  | succ k ih => simp only [List.replicate_succ, b58Digits, b58CharDigit_one, ih]

theorem b58Digits_map_digitChar :
    ∀ ds : List Nat, (∀ d ∈ ds, d < 58) → b58Digits (ds.map b58DigitChar) = some ds := by
  intro ds
  induction ds with
  | nil => intro _; rfl
  | cons d ds ih =>
      intro h
      have hd : d < 58 := h d (List.mem_cons_self d ds)
      have hds : ∀ x ∈ ds, x < 58 := fun x hx => h x (List.mem_cons_of_mem d hx)
      simp only [List.map_cons, b58Digits, b58CharDigit_b58DigitChar d hd, ih hds]

/-- Base-58 encoding of a byte list, as the `bs58` crate does it: one `'1'`
per leading zero byte, then the base-58 digits of the big-endian value. -/
def b58_encode (bs : List Nat) : List Char :=
  List.replicate (bs.takeWhile (fun x => x == 0)).length '1'
    ++ (natToDigitsLE 58 (digitsToNatBE 256 bs)).reverse.map b58DigitChar

/-- Base-58 decoding: `none` on a character outside the alphabet, otherwise
one zero byte per leading `'1'` and the big-endian bytes of the value. -/
def b58_decode (s : List Char) : Option (List Nat) :=
  match b58Digits s with
  | none => none
  | some ds =>
      some (List.replicate (s.takeWhile (fun c => c == '1')).length 0
        ++ (natToDigitsLE 256 (digitsToNatBE 58 ds)).reverse)

theorem b58_roundtrip (bs : List Nat) (h : ∀ x ∈ bs, x < 256) :
    b58_decode (b58_encode bs) = some bs := by
  have hone : ∀ x : Nat, (x == 0) = true → x = 0 := fun x hx => by simpa using hx
  have hdec := takeWhile_decomp (fun x : Nat => x == 0) 0 hone bs
  cases ht : bs.dropWhile (fun x => x == 0) with
  | nil =>
      rw [ht, List.append_nil] at hdec
      have hn : digitsToNatBE 256 bs = 0 := by
        conv_lhs => rw [hdec]
        have h0 := digitsToNatBE_replicate_zero 256
          (bs.takeWhile (fun x => x == 0)).length ([] : List Nat)
        simpa using h0
      unfold b58_encode
      rw [hn]
      have h0 : (natToDigitsLE 58 0).reverse.map b58DigitChar = [] := rfl
      rw [h0, List.append_nil]
      simp only [b58_decode, b58Digits_replicate_one]
      have htw : (List.replicate (bs.takeWhile (fun x => x == 0)).length '1').takeWhile
            (fun c => c == '1')
          = List.replicate (bs.takeWhile (fun x => x == 0)).length '1' := by
        have h1 := takeWhile_replicate_append (fun c : Char => c == '1') '1' (by simp)
          (bs.takeWhile (fun x => x == 0)).length []
        simp only [List.append_nil, List.takeWhile_nil] at h1
        exact h1
      rw [htw]
      have hv : digitsToNatBE 58
          (List.replicate (bs.takeWhile (fun x => x == 0)).length 0) = 0 := by
        have h1 := digitsToNatBE_replicate_zero 58
          (bs.takeWhile (fun x => x == 0)).length ([] : List Nat)
        simpa using h1
      rw [hv]
      have h0' : (natToDigitsLE 256 0).reverse = ([] : List Nat) := rfl
      rw [h0', List.append_nil, List.length_replicate]
      exact congrArg some hdec.symm
  | cons c cs =>
      rw [ht] at hdec
      have hc0 : c ≠ 0 := by
        have h1 := dropWhile_head_not (fun x : Nat => x == 0) bs c cs ht
        simpa using h1
      have htlt : ∀ x ∈ c :: cs, x < 256 := by
        intro x hx
        refine h x ?_
        have hsub : List.Sublist (c :: cs) bs := ht ▸ List.dropWhile_sublist (fun x => x == 0)
        exact hsub.subset hx
      have hnval : digitsToNatBE 256 bs = digitsToNatBE 256 (c :: cs) := by
        conv_lhs => rw [hdec]
        exact digitsToNatBE_replicate_zero 256 _ _
      have hn0 : digitsToNatBE 256 bs ≠ 0 := by
        rw [hnval]
        exact digitsToNatBE_cons_pos 256 c cs (by omega) hc0
      have hdig : natToDigitsLE 58 (digitsToNatBE 256 bs)
          = Nat.digits 58 (digitsToNatBE 256 bs) :=
        natToDigitsLE_eq_digits _ _ (by omega)
      have hdne : Nat.digits 58 (digitsToNatBE 256 bs) ≠ [] :=
        Nat.digits_ne_nil_iff_ne_zero.mpr hn0
      obtain ⟨d0, drest, hD⟩ : ∃ d0 drest,
          (natToDigitsLE 58 (digitsToNatBE 256 bs)).reverse = d0 :: drest := by
        rw [hdig]
        cases hcase : (Nat.digits 58 (digitsToNatBE 256 bs)).reverse with
        | nil =>
            exfalso
            exact hdne (by simpa using congrArg List.reverse hcase)
        | cons a as => exact ⟨a, as, rfl⟩
      have hd0_last : (Nat.digits 58 (digitsToNatBE 256 bs)).getLast? = some d0 := by
        rw [← List.head?_reverse, ← hdig, hD]
        rfl
      have hd0_eq : d0 = (Nat.digits 58 (digitsToNatBE 256 bs)).getLast hdne := by
        rw [List.getLast?_eq_getLast _ hdne] at hd0_last
        exact (Option.some.injEq _ _ ▸ hd0_last).symm
      have hd0_ne : d0 ≠ 0 := by
        rw [hd0_eq]
        exact Nat.getLast_digit_ne_zero 58 hn0
      have hDmem : ∀ x ∈ d0 :: drest, x < 58 := by
        intro x hx
        have hx' : x ∈ (natToDigitsLE 58 (digitsToNatBE 256 bs)).reverse := hD ▸ hx
        have hx'' : x ∈ Nat.digits 58 (digitsToNatBE 256 bs) := by
          rw [hdig] at hx'
          exact List.mem_reverse.mp hx'
        exact Nat.digits_lt_base (by omega) hx''
      have hd0_lt : d0 < 58 := hDmem d0 (List.mem_cons_self d0 drest)
      -- the encoded text
      unfold b58_encode
      rw [hD, List.map_cons]
      have hdigs : b58Digits
          (List.replicate (bs.takeWhile (fun x => x == 0)).length '1'
            ++ b58DigitChar d0 :: drest.map b58DigitChar)
          = some (List.replicate (bs.takeWhile (fun x => x == 0)).length 0
            ++ d0 :: drest) := by
        refine b58Digits_append_some _ _ _ _ (b58Digits_replicate_one _) ?_
        have h1 := b58Digits_map_digitChar (d0 :: drest) hDmem
        simpa using h1
      simp only [b58_decode, hdigs]
      have hbeq : (b58DigitChar d0 == '1') = false := by
        rw [beq_eq_false_iff_ne]
        exact b58DigitChar_ne_one d0 hd0_lt hd0_ne
      have htw : (List.replicate (bs.takeWhile (fun x => x == 0)).length '1'
            ++ b58DigitChar d0 :: drest.map b58DigitChar).takeWhile (fun c => c == '1')
          = List.replicate (bs.takeWhile (fun x => x == 0)).length '1' := by
        rw [takeWhile_replicate_append (fun c : Char => c == '1') '1' (by simp)]
        rw [List.takeWhile_cons_of_neg (by simp [hbeq])]
        simp
      rw [htw]
      have hv : digitsToNatBE 58
          (List.replicate (bs.takeWhile (fun x => x == 0)).length 0 ++ d0 :: drest)
          = digitsToNatBE 256 bs := by
        rw [digitsToNatBE_replicate_zero, ← hD,
          digitsToNatBE_natToDigitsLE 58 (digitsToNatBE 256 bs) (by omega)]
      rw [hv]
      have hbytes : (natToDigitsLE 256 (digitsToNatBE 256 bs)).reverse = c :: cs := by
        rw [hnval]
        exact natToDigitsLE_digitsToNatBE 256 (by omega) (c :: cs) htlt
          (fun c' cs' hcc => by
            cases hcc
            exact hc0)
      rw [hbytes, List.length_replicate]
      exact congrArg some hdec.symm

/-- A nonzero number's minimal digit list, reversed to big-endian, starts
with a nonzero digit below the base. -/
theorem natToDigitsLE_reverse_cons (b n : Nat) (hb : 2 ≤ b) (hn : n ≠ 0) :
    ∃ d0 drest, (natToDigitsLE b n).reverse = d0 :: drest ∧ d0 ≠ 0 ∧
      ∀ x ∈ d0 :: drest, x < b := by
  have hdig : natToDigitsLE b n = Nat.digits b n := natToDigitsLE_eq_digits _ _ hb
  have hdne : Nat.digits b n ≠ [] := Nat.digits_ne_nil_iff_ne_zero.mpr hn
  obtain ⟨d0, drest, hD⟩ : ∃ d0 drest, (natToDigitsLE b n).reverse = d0 :: drest := by
    rw [hdig]
    cases hcase : (Nat.digits b n).reverse with
    | nil =>
        exfalso
        exact hdne (by simpa using congrArg List.reverse hcase)
    | cons a as => exact ⟨a, as, rfl⟩
  have hd0_last : (Nat.digits b n).getLast? = some d0 := by
    rw [← List.head?_reverse, ← hdig, hD]
    rfl
  have hd0_eq : d0 = (Nat.digits b n).getLast hdne := by
    rw [List.getLast?_eq_getLast _ hdne] at hd0_last
    exact (Option.some.injEq _ _ ▸ hd0_last).symm
  have hd0_ne : d0 ≠ 0 := by
    rw [hd0_eq]
    exact Nat.getLast_digit_ne_zero b hn
  refine ⟨d0, drest, hD, hd0_ne, ?_⟩
  intro x hx
  have hx' : x ∈ (natToDigitsLE b n).reverse := hD ▸ hx
  have hx'' : x ∈ Nat.digits b n := by
    rw [hdig] at hx'
    exact List.mem_reverse.mp hx'
  exact Nat.digits_lt_base (by omega) hx''

/-- The character for a decimal digit. -/
def decDigitChar (d : Nat) : Char := Char.ofNat (48 + d)

def isDecDigit (c : Char) : Bool := decide (48 ≤ c.toNat) && decide (c.toNat ≤ 57)

/-- Decimal rendering of a `Nat`, as Rust's `Display`/`Debug` renders a
`u8` value. -/
def renderNat (n : Nat) : List Char :=
  if n = 0 then ['0'] else (natToDigitsLE 10 n).reverse.map decDigitChar

/-- The inside of Rust's `Debug` output for a slice: elements separated by
`", "`. -/
def renderInner : List Nat → List Char
  | [] => []
  | [n] => renderNat n
  | n :: rest => renderNat n ++ ',' :: ' ' :: renderInner rest

/-- Rust `Debug` output for a byte array, `[a, b, c]`; this is what
`println` with the debug formatter prints for `Keypair::to_bytes()`. -/
def renderByteArray (bs : List Nat) : List Char :=
  '[' :: (renderInner bs ++ [']'])

def isWsChar (c : Char) : Bool := c == ' ' || c == '\t' || c == '\n' || c == '\r'

def skipWs (l : List Char) : List Char := l.dropWhile isWsChar

/-- Parse a JSON unsigned-integer literal prefix: the value and the rest of
the input.  Rejects an empty digit run and leading zeros, as JSON does. -/
def parseNum (l : List Char) : Option (Nat × List Char) :=
  if (l.takeWhile isDecDigit).isEmpty then none
  else if (l.takeWhile isDecDigit).head? = some '0' ∧ (l.takeWhile isDecDigit).length ≠ 1 then
    none
  else
    some (digitsToNatBE 10 ((l.takeWhile isDecDigit).map (fun c => c.toNat - 48)),
      l.dropWhile isDecDigit)

/-- Parse the elements of a JSON array of `u8`, positioned after the opening
bracket and any whitespace; models `serde_json`'s `Vec<u8>` element loop,
including the `u8` range check. -/
def parseElems : Nat → List Char → Option (List Nat × List Char)
  | 0, _ => none
  | fuel + 1, l =>
      match parseNum l with
      | none => none
      | some (n, rest) =>
          if 256 ≤ n then none
          else
            match skipWs rest with
            | [] => none
            | c :: rest2 =>
                if c == ',' then
                  match parseElems fuel (skipWs rest2) with
                  | none => none
                  | some (ns, rest3) => some (n :: ns, rest3)
                else if c == ']' then some ([n], rest2)
                else none

/-- Parse a JSON array of `u8` surrounded by nothing but whitespace: the
model of `serde_json::from_reader::<Vec<u8>>` as `read_keypair` uses it. -/
def parseByteList (s : List Char) : Option (List Nat) :=
  match skipWs s with
  | [] => none
  | c :: rest =>
      if c == '[' then
        match skipWs rest with
        | [] => none
        | c2 :: rest2 =>
            if c2 == ']' then (if (skipWs rest2).isEmpty then some [] else none)
            else
              match parseElems (c2 :: rest2).length (c2 :: rest2) with
              | none => none
              | some (ns, rest3) => if (skipWs rest3).isEmpty then some ns else none
      else none

theorem isDecDigit_decDigitChar : ∀ d, d < 10 → isDecDigit (decDigitChar d) = true := by
  decide

theorem toNat_decDigitChar : ∀ d, d < 10 → (decDigitChar d).toNat - 48 = d := by
  decide

theorem decDigitChar_ne_zeroChar : ∀ d, d < 10 → d ≠ 0 → decDigitChar d ≠ '0' := by
  decide

theorem isDecDigit_bounds (c : Char) (h : isDecDigit c = true) :
    48 ≤ c.toNat ∧ c.toNat ≤ 57 := by
  unfold isDecDigit at h
  simp only [Bool.and_eq_true, decide_eq_true_eq] at h
  exact h

theorem isDecDigit_not_ws (c : Char) (h : isDecDigit c = true) : isWsChar c = false := by
  have hb := isDecDigit_bounds c h
  have h1 : (c == ' ') = false := by
    rw [beq_eq_false_iff_ne]
    intro he
    subst he
    exact absurd hb (by decide)
  have h2 : (c == '\t') = false := by
    rw [beq_eq_false_iff_ne]
    intro he
    subst he
    exact absurd hb (by decide)
  have h3 : (c == '\n') = false := by
    rw [beq_eq_false_iff_ne]
    intro he
    subst he
    exact absurd hb (by decide)
  have h4 : (c == '\r') = false := by
    rw [beq_eq_false_iff_ne]
    intro he
    subst he
    exact absurd hb (by decide)
  unfold isWsChar
  rw [h1, h2, h3, h4]
  rfl

theorem isDecDigit_ne_rbracket (c : Char) (h : isDecDigit c = true) : (c == ']') = false := by
  have hb := isDecDigit_bounds c h
  rw [beq_eq_false_iff_ne]
  intro he
  subst he
  exact absurd hb (by decide)

theorem renderNat_all_digits (n : Nat) : ∀ c ∈ renderNat n, isDecDigit c = true := by
  unfold renderNat
  by_cases hn : n = 0
  · subst hn
    intro c hc
    simp only [if_pos rfl] at hc
    rw [List.mem_singleton.mp hc]
    decide
  · rw [if_neg hn]
    intro c hc
    obtain ⟨d, hd, hcd⟩ := List.mem_map.mp hc
    have hd10 : d < 10 := by
      have : d ∈ natToDigitsLE 10 n := List.mem_reverse.mp hd
      rw [natToDigitsLE_eq_digits 10 n (by omega)] at this
      exact Nat.digits_lt_base (by omega) this
    rw [← hcd]
    exact isDecDigit_decDigitChar d hd10

theorem renderNat_cons (n : Nat) :
    ∃ c cs, renderNat n = c :: cs ∧ isDecDigit c = true := by
  by_cases hn : n = 0
  · exact ⟨'0', [], by simp [renderNat, hn], by decide⟩
  · obtain ⟨d0, drest, hD, hd0ne, hmem⟩ := natToDigitsLE_reverse_cons 10 n (by omega) hn
    refine ⟨decDigitChar d0, drest.map decDigitChar, ?_, ?_⟩
    · unfold renderNat
      rw [if_neg hn, hD, List.map_cons]
    · exact isDecDigit_decDigitChar d0 (hmem d0 (List.mem_cons_self d0 drest))

theorem takeWhile_all_append (p : α → Bool) :
    ∀ (a rest : List α), (∀ c ∈ a, p c = true) →
      (∀ c cs, rest = c :: cs → p c = false) →
      (a ++ rest).takeWhile p = a ∧ (a ++ rest).dropWhile p = rest := by
  intro a
  induction a with
  | nil =>
      intro rest _ hrest
      cases rest with
      | nil => exact ⟨rfl, rfl⟩
      | cons c cs =>
          have hc : p c = false := hrest c cs rfl
          have hcp : ¬p c = true := by simp [hc]
          constructor
          · rw [List.nil_append, List.takeWhile_cons_of_neg hcp]
          · rw [List.nil_append, List.dropWhile_cons_of_neg hcp]
  | cons x a ih =>
      intro rest hall hrest
      have hx : p x = true := hall x (List.mem_cons_self x a)
      have ha : ∀ c ∈ a, p c = true := fun c hc => hall c (List.mem_cons_of_mem x hc)
      obtain ⟨h1, h2⟩ := ih rest ha hrest
      constructor
      · simp only [List.cons_append]
        rw [List.takeWhile_cons_of_pos hx, h1]
      · simp only [List.cons_append]
        rw [List.dropWhile_cons_of_pos hx, h2]

theorem parseNum_render (n : Nat) (rest : List Char)
    (hrest : ∀ c cs, rest = c :: cs → isDecDigit c = false) :
    parseNum (renderNat n ++ rest) = some (n, rest) := by
  obtain ⟨htake, hdrop⟩ :=
    takeWhile_all_append isDecDigit (renderNat n) rest (renderNat_all_digits n) hrest
  by_cases hn : n = 0
  · subst hn
    have h0 : renderNat 0 = ['0'] := rfl
    unfold parseNum
    rw [htake, hdrop, h0]
    rw [if_neg (by simp)]
    rw [if_neg (by simp)]
    have hval : digitsToNatBE 10 ((['0'] : List Char).map (fun c => c.toNat - 48)) = 0 := by
      decide
    rw [hval]
  · obtain ⟨d0, drest, hD, hd0ne, hmem⟩ := natToDigitsLE_reverse_cons 10 n (by omega) hn
    have hd0lt : d0 < 10 := hmem d0 (List.mem_cons_self d0 drest)
    have hrn : renderNat n = decDigitChar d0 :: drest.map decDigitChar := by
      unfold renderNat
      rw [if_neg hn, hD, List.map_cons]
    unfold parseNum
    rw [htake, hdrop, hrn]
    rw [if_neg (by simp)]
    rw [if_neg (by
      intro hcontra
      obtain ⟨h1, _⟩ := hcontra
      simp only [List.head?_cons, Option.some.injEq] at h1
      exact decDigitChar_ne_zeroChar d0 hd0lt hd0ne h1)]
    have hval : digitsToNatBE 10
        ((decDigitChar d0 :: drest.map decDigitChar).map (fun c => c.toNat - 48)) = n := by
      rw [← List.map_cons, List.map_map]
      have hpt : ∀ a ∈ d0 :: drest, ((fun c : Char => c.toNat - 48) ∘ decDigitChar) a = id a := by
        intro a ha
        simp only [Function.comp_apply, id_eq]
        exact toNat_decDigitChar a (hmem a ha)
      rw [List.map_congr_left hpt, List.map_id, ← hD,
        digitsToNatBE_natToDigitsLE 10 n (by omega)]
    rw [hval]

theorem renderInner_cons_digit (y : Nat) (l' : List Nat) :
    ∃ c cs, renderInner (y :: l') = c :: cs ∧ isDecDigit c = true := by
  obtain ⟨c, cs, hc, hd⟩ := renderNat_cons y
  cases l' with
  | nil =>
      refine ⟨c, cs, ?_, hd⟩
      show renderNat y = c :: cs
      exact hc
  | cons z zs =>
      refine ⟨c, cs ++ ',' :: ' ' :: renderInner (z :: zs), ?_, hd⟩
      show renderNat y ++ ',' :: ' ' :: renderInner (z :: zs) = _
      rw [hc]
      rfl

theorem renderInner_length_ge : ∀ l : List Nat, l.length ≤ (renderInner l).length := by
  intro l
  induction l with
  | nil => simp [renderInner]
  | cons x xs ih =>
      cases xs with
      | nil =>
          obtain ⟨c, cs, hc, _⟩ := renderNat_cons x
          have h1 : renderInner [x] = renderNat x := rfl
          rw [h1, hc]
          simp
      | cons y l' =>
          have h1 : renderInner (x :: y :: l') = renderNat x ++ ',' :: ' ' :: renderInner (y :: l') := rfl
          rw [h1]
          obtain ⟨c, cs, hc, _⟩ := renderNat_cons x
          rw [hc]
          simp only [List.length_append, List.length_cons] at *
          omega

theorem parseElems_render :
    ∀ (l : List Nat) (fuel : Nat) (rest : List Char),
      l ≠ [] → (∀ x ∈ l, x < 256) → l.length ≤ fuel →
      parseElems fuel (renderInner l ++ ']' :: rest) = some (l, rest) := by
  intro l
  induction l with
  | nil =>
      intro fuel rest hne
      exact absurd rfl hne
  | cons x xs ih =>
      intro fuel rest _ hlt hfuel
      simp only [List.length_cons] at hfuel
      obtain ⟨f, rfl⟩ : ∃ f, fuel = f + 1 := ⟨fuel - 1, by omega⟩
      have hx : x < 256 := hlt x (List.mem_cons_self x xs)
      cases xs with
      | nil =>
          have hrest' : ∀ c cs, (']' :: rest) = c :: cs → isDecDigit c = false := by
            intro c cs h
            cases h
            decide
          have hpn := parseNum_render x (']' :: rest) hrest'
          have hri : renderInner [x] = renderNat x := rfl
          rw [hri]
          simp only [parseElems, hpn]
          rw [if_neg (by omega : ¬256 ≤ x)]
          have hsw : skipWs (']' :: rest) = ']' :: rest := by
            unfold skipWs
            exact List.dropWhile_cons_of_neg (by decide)
          simp only [hsw]
          rw [if_neg (by decide), if_pos (by decide)]
      | cons y l' =>
          have hxs_ne : (y :: l') ≠ [] := by simp
          have hlt' : ∀ a ∈ y :: l', a < 256 := fun a ha => hlt a (List.mem_cons_of_mem x ha)
          have hfuel' : (y :: l').length ≤ f := by
            simp only [List.length_cons] at *
            omega
          have hri : renderInner (x :: y :: l') ++ ']' :: rest
              = renderNat x ++ (',' :: ' ' :: (renderInner (y :: l') ++ ']' :: rest)) := by
            show (renderNat x ++ ',' :: ' ' :: renderInner (y :: l')) ++ ']' :: rest = _
            simp [List.append_assoc]
          rw [hri]
          have hrest2 : ∀ c cs,
              (',' :: ' ' :: (renderInner (y :: l') ++ ']' :: rest)) = c :: cs →
              isDecDigit c = false := by
            intro c cs h
            cases h
            decide
          have hpn := parseNum_render x _ hrest2
          simp only [parseElems, hpn]
          rw [if_neg (by omega : ¬256 ≤ x)]
          have hsw1 : skipWs (',' :: ' ' :: (renderInner (y :: l') ++ ']' :: rest))
              = ',' :: ' ' :: (renderInner (y :: l') ++ ']' :: rest) := by
            unfold skipWs
            exact List.dropWhile_cons_of_neg (by decide)
          simp only [hsw1]
          rw [if_pos (by decide)]
          obtain ⟨c1, cs1, hc1, hc1d⟩ := renderInner_cons_digit y l'
          have hu : renderInner (y :: l') ++ ']' :: rest = c1 :: (cs1 ++ ']' :: rest) := by
            rw [hc1]
            rfl
          have hsw2 : skipWs (' ' :: (renderInner (y :: l') ++ ']' :: rest))
              = renderInner (y :: l') ++ ']' :: rest := by
            unfold skipWs
            rw [List.dropWhile_cons_of_pos (by decide)]
            conv_lhs => rw [hu]
            rw [List.dropWhile_cons_of_neg (by simp [isDecDigit_not_ws c1 hc1d])]
            rw [hu]
          rw [hsw2]
          simp only [ih f rest hxs_ne hlt' hfuel']

theorem parseByteList_render (bs : List Nat) (h : ∀ x ∈ bs, x < 256) :
    parseByteList (renderByteArray bs) = some bs := by
  have h1 : skipWs ('[' :: (renderInner bs ++ [']'])) = '[' :: (renderInner bs ++ [']']) := by
    unfold skipWs
    exact List.dropWhile_cons_of_neg (by decide)
  show parseByteList ('[' :: (renderInner bs ++ [']'])) = some bs
  cases bs with
  | nil =>
      have h2 : skipWs (renderInner ([] : List Nat) ++ [']']) = [']'] := by
        show skipWs [']'] = [']']
        unfold skipWs
        exact List.dropWhile_cons_of_neg (by decide)
      simp only [parseByteList, h1]
      rw [if_pos (by decide)]
      simp only [h2]
      rw [if_pos (by decide), if_pos (by decide)]
  | cons x xs =>
      obtain ⟨c1, cs1, hc1, hc1d⟩ := renderInner_cons_digit x xs
      have hu : renderInner (x :: xs) ++ [']'] = c1 :: (cs1 ++ [']']) := by
        rw [hc1]
        rfl
      have h2 : skipWs (renderInner (x :: xs) ++ [']']) = c1 :: (cs1 ++ [']']) := by
        rw [hu]
        unfold skipWs
        exact List.dropWhile_cons_of_neg (by simp [isDecDigit_not_ws c1 hc1d])
      simp only [parseByteList, h1]
      rw [if_pos (by decide)]
      simp only [h2]
      rw [if_neg (by simp [isDecDigit_ne_rbracket c1 hc1d])]
      have hback : c1 :: (cs1 ++ [']']) = renderInner (x :: xs) ++ ']' :: [] := hu.symm
      rw [hback]
      have hlen : (x :: xs).length ≤ (renderInner (x :: xs) ++ ']' :: []).length := by
        rw [List.length_append]
        have hg := renderInner_length_ge (x :: xs)
        simp only [List.length_cons]
        simp only [List.length_cons] at hg
        omega
      have hpe := parseElems_render (x :: xs) ((renderInner (x :: xs) ++ ']' :: []).length) []
        (by simp) h hlen
      simp only [hpe]
      rw [if_pos (by decide)]

/-- The `--transform`/`--format` enumeration of the CLI (command.rs:49-53). -/
inductive Format where
  | Base58
  | Bytes
  deriving DecidableEq

/-- A keypair is its 64 raw bytes (32 secret key bytes followed by the 32
public key bytes), the opaque fixed-size value of the spec. -/
abbrev Keypair := List Nat

/-- Model of `create_keypair` (command.rs:116-125): `Base58` goes through
`Keypair::from_base58_string` (bs58 decode, then the 64-byte check of
`from_bytes`), `Bytes` through `read_keypair` (JSON byte array, then the
64-byte check).  `none` models the `expect`/`unwrap` panics. -/
def create_keypair (kp_value : List Char) (format : Format) : Option Keypair :=
  match format with
  | Format.Base58 =>
      match b58_decode kp_value with
      | none => none
      | some bs => if bs.length = 64 then some bs else none
  | Format.Bytes =>
      match parseByteList kp_value with
      | none => none
      | some bs => if bs.length = 64 then some bs else none

/-- Model of `print_transform_keypair` (command.rs:127-132): the textual
payload printed for the transformed keypair (`to_base58_string` for
`Base58`, the `Debug` byte array for `Bytes`). -/
def print_transform_keypair (keypair : Keypair) (transform : Format) : List Char :=
  match transform with
  | Format.Base58 => b58_encode keypair
  | Format.Bytes => renderByteArray keypair

/-- The body of the `KeypairTransform` arm of `Cli::start` (command.rs:66-71)
once the raw value is in hand: flip the format with the inline `match`,
decode with `create_keypair`, re-encode with `print_transform_keypair`.
`none` models the decode panic. -/
def keypairTransformCore (kp_raw_value : List Char) (transform : Format) :
    Option (List Char) :=
  match create_keypair kp_raw_value
      (match transform with
       | Format.Base58 => Format.Bytes
       | Format.Bytes => Format.Base58) with
  | none => none
  | some kp => some (print_transform_keypair kp transform)

/-- The opposite of a format, as the spec words it (spec section 4.2). -/
def oppositeFormat : Format → Format
  | Format.Base58 => Format.Bytes
  | Format.Bytes => Format.Base58

/-- Observable outcome of one `keypair-transform` invocation. -/
inductive KtResult where
  | usage
  | helpShown
  | output (line : List Char)
  | panicked
  deriving DecidableEq

/-- Model of `read_keypair_file_as_str` (command.rs:104-114): the whole file
contents, verbatim; `none` models the open/read `expect` panics.  The file
system is the parameter `fs`. -/
def read_keypair_file_as_str (fs : List Char → Option (List Char))
    (path : List Char) : Option (List Char) :=
  fs path

/-- One `keypair-transform` invocation (clap parse plus dispatch,
command.rs:21-31 and 60-72).  The clap attribute
`required_unless_present = "path"` rejects the neither-given case at parse
time; the handler's catch-all arm prints help when both are given. -/
def runKeypairTransform (fs : List Char → Option (List Char)) (transform : Format)
    (path : Option (List Char)) (value : Option (List Char)) : KtResult :=
  if path.isNone && value.isNone then KtResult.usage
  else
    match path, value with
    | some p, none =>
        match read_keypair_file_as_str fs p with
        | none => KtResult.panicked
        | some kp_raw_value =>
            match keypairTransformCore kp_raw_value transform with
            | none => KtResult.panicked
            | some out => KtResult.output out
    | none, some v =>
        match keypairTransformCore v transform with
        | none => KtResult.panicked
        | some out => KtResult.output out
    | _, _ => KtResult.helpShown

abbrev Pubkey := List Nat

abbrev BlockHash := List Nat

abbrev Sig64 := List Nat

structure MessageHeader where
  num_required_signatures : Nat
  num_readonly_signed_accounts : Nat
  num_readonly_unsigned_accounts : Nat
  deriving DecidableEq

structure CompiledInstruction where
  program_id_index : Nat
  accounts : List Nat
  data : List Nat
  deriving DecidableEq

structure Message where
  header : MessageHeader
  account_keys : List Pubkey
  recent_blockhash : BlockHash
  instructions : List CompiledInstruction
  deriving DecidableEq

structure Transaction where
  signatures : List Sig64
  message : Message
  deriving DecidableEq

/-- `Signature::default()`: 64 zero bytes. -/
def sigDefault : Sig64 := List.replicate 64 0

/-- The public key of a keypair: the last 32 of its 64 bytes. -/
def keypairPubkey (kp : Keypair) : Pubkey := kp.drop 32

/-- Model of `Transaction::get_signing_keypair_positions` for one pubkey:
`none` is the `Err` on a header requiring more signers than there are
account keys, `some none` a pubkey that is not among the required signers. -/
def get_signing_keypair_position (msg : Message) (pk : Pubkey) : Option (Option Nat) :=
  if msg.account_keys.length < msg.header.num_required_signatures then none
  else
    some ((msg.account_keys.take msg.header.num_required_signatures).findIdx?
      (fun x => x == pk))

/-- Model of `Transaction::partial_sign` with a single keypair; `sign` is
the opaque ed25519 signing primitive over the (serialized) message.  The
blockhash comparison and the signature-clearing branch mirror
`partial_sign_unchecked`; `none` models the `expect` and indexing panics. -/
def psign (sign : Keypair → Message → Sig64) (tx : Transaction) (kp : Keypair)
    (recent_blockhash : BlockHash) : Option Transaction :=
  match get_signing_keypair_position tx.message (keypairPubkey kp) with
  | none => none
  | some none => none
  | some (some i) =>
      let tx1 : Transaction :=
        if recent_blockhash ≠ tx.message.recent_blockhash then
          { signatures := tx.signatures.map (fun _ => sigDefault),
            message := { tx.message with recent_blockhash := recent_blockhash } }
        else tx
      if i < tx1.signatures.length then
        some { tx1 with signatures := tx1.signatures.set i (sign kp tx1.message) }
      else none

/-- A printed line of the `transaction-send` handler (payload only). -/
inductive OutLine where
  | rpcClientUrl (url : List Char)
  | decodedTx (tx : Transaction)
  | readKeypairRaw (raw : List Char)
  | signedTx (tx : Transaction)
  | sendingTx
  | txSuccess (sig : Sig64)
  | txFailure (err : List Char)
  deriving DecidableEq

/-- Observable events of one `transaction-send` invocation. -/
inductive Event where
  | printedLine (line : OutLine)
  | fileRead (path contents : List Char)
  | networkSubmit (tx : Transaction)
  deriving DecidableEq

/-- Result of `send_and_confirm_transaction`, as reported by the node. -/
inductive SubmitOutcome where
  | success (sig : Sig64)
  | failure (err : List Char)
  deriving DecidableEq

/-- Whether the process panicked or exited normally. -/
inductive RunStatus where
  | exitSuccess
  | panicked
  deriving DecidableEq

/-- Value of a character in the standard base-64 alphabet. -/
def b64CharVal (c : Char) : Option Nat :=
  if 65 ≤ c.toNat ∧ c.toNat ≤ 90 then some (c.toNat - 65)
  else if 97 ≤ c.toNat ∧ c.toNat ≤ 122 then some (c.toNat - 97 + 26)
  else if 48 ≤ c.toNat ∧ c.toNat ≤ 57 then some (c.toNat - 48 + 52)
  else if c = '+' then some 62
  else if c = '/' then some 63
  else none

def b64Sextets : List Char → Option (List Nat)
  | [] => some []
  | c :: cs =>
      match b64CharVal c, b64Sextets cs with
      | some v, some vs => some (v :: vs)
      | _, _ => none

/-- Reassemble bytes from sextets, four at a time; a final group of two or
three sextets must have zero trailing bits, a final single sextet is
invalid. -/
def b64Quads : List Nat → Option (List Nat)
  | [] => some []
  | [_] => none
  | [a, b] => if b % 16 = 0 then some [a * 4 + b / 16] else none
  | [a, b, c] =>
      if c % 4 = 0 then some [a * 4 + b / 16, (b % 16) * 16 + c / 4] else none
  | a :: b :: c :: d :: rest =>
      match b64Quads rest with
      | none => none
      | some bs =>
          some ((a * 4 + b / 16) :: ((b % 16) * 16 + c / 4) :: ((c % 4) * 64 + d) :: bs)

/-- Model of `base64::decode` with the standard alphabet: up to two trailing
padding characters (requiring a total length divisible by four when padding
is present), then sextet decoding and byte reassembly. -/
def base64_decode (s : List Char) : Option (List Nat) :=
  if 2 < (s.reverse.takeWhile (fun c => c == '=')).length then none
  else if (s.reverse.takeWhile (fun c => c == '=')).length ≠ 0 ∧ s.length % 4 ≠ 0 then none
  else if s.length % 4 = 1 then none
  else
    match b64Sextets (s.reverse.dropWhile (fun c => c == '=')).reverse with
    | none => none
    | some vs => b64Quads vs

/-- Model of `normalize_to_url_if_moniker` from `solana_clap_v3_utils`. -/
def normalize_to_url_if_moniker (url : List Char) : List Char :=
  if url == "m".data || url == "mainnet-beta".data then
    "https://api.mainnet-beta.solana.com".data
  else if url == "t".data || url == "testnet".data then
    "https://api.testnet.solana.com".data
  else if url == "d".data || url == "devnet".data then
    "https://api.devnet.solana.com".data
  else if url == "l".data || url == "localhost".data then
    "http://localhost:8899".data
  else url

/-- The signer block of the `TransactionSend` arm (command.rs:81-90): the
events it produces and the resulting transaction (`none` is a panic inside
the block). -/
def signerStep (sign : Keypair → Message → Sig64)
    (fs : List Char → Option (List Char))
    (signer : Option (List Char)) (format : Option Format) (tx : Transaction) :
    List Event × Option Transaction :=
  match signer with
  | none => ([], some tx)
  | some signer_path =>
      match read_keypair_file_as_str fs signer_path with
      | none => ([], none)
      | some kp_raw_value =>
          match create_keypair kp_raw_value
              (match format with
               | some f => f
               | none => Format.Bytes) with
          | none =>
              ([Event.fileRead signer_path kp_raw_value,
                Event.printedLine (OutLine.readKeypairRaw kp_raw_value)], none)
          | some kp =>
              match psign sign tx kp tx.message.recent_blockhash with
              | none =>
                  ([Event.fileRead signer_path kp_raw_value,
                    Event.printedLine (OutLine.readKeypairRaw kp_raw_value)], none)
              | some tx2 =>
                  ([Event.fileRead signer_path kp_raw_value,
                    Event.printedLine (OutLine.readKeypairRaw kp_raw_value),
                    Event.printedLine (OutLine.signedTx tx2)], some tx2)

/-- One `transaction-send` invocation (command.rs:74-98): the observable
event trace and whether the process panicked or exited normally.  The
bincode wire format (`deser`), the signing primitive (`sign`), the file
system (`fs`) and the remote node (`submit`) are opaque parameters. -/
def transactionSend (deser : List Nat → Option Transaction)
    (sign : Keypair → Message → Sig64)
    (fs : List Char → Option (List Char))
    (submit : Transaction → SubmitOutcome)
    (url transaction : List Char)
    (signer : Option (List Char)) (format : Option Format) :
    List Event × RunStatus :=
  let ev0 := [Event.printedLine (OutLine.rpcClientUrl (normalize_to_url_if_moniker url))]
  match base64_decode transaction with
  | none => (ev0, RunStatus.panicked)
  | some decoded_tx =>
      match deser decoded_tx with
      | none => (ev0, RunStatus.panicked)
      | some tx =>
          let ev1 := ev0 ++ [Event.printedLine (OutLine.decodedTx tx)]
          match signerStep sign fs signer format tx with
          | (evs, none) => (ev1 ++ evs, RunStatus.panicked)
          | (evs, some tx2) =>
              let ev2 := ev1 ++ evs
                ++ [Event.printedLine OutLine.sendingTx, Event.networkSubmit tx2]
              match submit tx2 with
              | SubmitOutcome.success sig =>
                  (ev2 ++ [Event.printedLine (OutLine.txSuccess sig)],
                    RunStatus.exitSuccess)
              | SubmitOutcome.failure err =>
                  (ev2 ++ [Event.printedLine (OutLine.txFailure err)],
                    RunStatus.exitSuccess)

/-- The transactions submitted to the network in an event trace. -/
def submittedTxs (evs : List Event) : List Transaction :=
  evs.filterMap (fun e =>
    match e with
    | Event.networkSubmit tx => some tx
    | _ => none)

/-- The result line printed for a submission outcome (command.rs:95-97). -/
def resultLine : SubmitOutcome → OutLine
  | SubmitOutcome.success sig => OutLine.txSuccess sig
  | SubmitOutcome.failure err => OutLine.txFailure err

/-- The raw-text data path of the signer block: what it computes from the
raw keypair text alone. -/
def sigResultOfRaw (sign : Keypair → Message → Sig64) (kp_raw_value : List Char)
    (format : Option Format) (tx : Transaction) : Option Transaction :=
  match create_keypair kp_raw_value
      (match format with
       | some f => f
       | none => Format.Bytes) with
  | none => none
  | some kp => psign sign tx kp tx.message.recent_blockhash

/-- A sample keypair for witnesses: bytes 0..63 (public key = bytes 32..63). -/
def kpSample : Keypair := List.range 64

/-- A sample transaction whose single required signer is `kpSample`'s
public key. -/
def txSample : Transaction :=
  { signatures := [sigDefault],
    message :=
      { header :=
          { num_required_signatures := 1,
            num_readonly_signed_accounts := 0,
            num_readonly_unsigned_accounts := 0 },
        account_keys := [keypairPubkey kpSample],
        recent_blockhash := List.replicate 32 3,
        instructions := [] } }

/-- C1: every keypair-transform invocation with target format `F` decodes
the input raw text with the opposite format of `F` and re-encodes the
keypair in `F`: the printed output is
`print_transform_keypair (create_keypair input (oppositeFormat F)) F`. -/
theorem C1_transform_uses_opposite_format (kp_raw_value : List Char) (transform : Format) :
    keypairTransformCore kp_raw_value transform
      = Option.map (fun kp => print_transform_keypair kp transform)
          (create_keypair kp_raw_value (oppositeFormat transform)) := by
  cases transform <;>
    · unfold keypairTransformCore oppositeFormat
      cases create_keypair kp_raw_value _ <;> rfl

/-- C2: decoding the encoding of any valid 64-byte keypair in either format
yields the keypair again: `create_keypair (print_transform_keypair kp F) F
= some kp`. -/
theorem C2_codec_roundtrip (kp : Keypair) (F : Format)
    (hlen : kp.length = 64) (hbytes : ∀ b ∈ kp, b < 256) :
    create_keypair (print_transform_keypair kp F) F = some kp := by
  cases F with
  | Base58 =>
      show create_keypair (b58_encode kp) Format.Base58 = some kp
      simp only [create_keypair, b58_roundtrip kp hbytes]
      rw [if_pos hlen]
  | Bytes =>
      show create_keypair (renderByteArray kp) Format.Bytes = some kp
      simp only [create_keypair, parseByteList_render kp hbytes]
      rw [if_pos hlen]

/-- Witness for C2 at the concrete 64-byte keypair `[0, 1, ..., 63]`, in
both formats. -/
theorem C2_codec_roundtrip_witness :
    create_keypair (print_transform_keypair kpSample Format.Base58) Format.Base58
        = some kpSample
      ∧ create_keypair (print_transform_keypair kpSample Format.Bytes) Format.Bytes
        = some kpSample :=
  ⟨C2_codec_roundtrip kpSample Format.Base58 (by decide) (by decide),
   C2_codec_roundtrip kpSample Format.Bytes (by decide) (by decide)⟩

/-- C6: with both `--path` and `--value` given, or with neither, the
invocation ends in a usage or help message (clap's parse-time rejection for
the neither case, the handler's `print_help` catch-all for the both case),
never a crash, and never builds or prints a keypair. -/
theorem C6_mutual_exclusion (fs : List Char → Option (List Char)) (transform : Format)
    (path value : Option (List Char))
    (h : (path = none ∧ value = none) ∨ (path ≠ none ∧ value ≠ none)) :
    runKeypairTransform fs transform path value = KtResult.usage
      ∨ runKeypairTransform fs transform path value = KtResult.helpShown := by
  rcases h with ⟨hp, hv⟩ | ⟨hp, hv⟩
  · subst hp
    subst hv
    left
    rfl
  · cases path with
    | none => exact absurd rfl hp
    | some p =>
        cases value with
        | none => exact absurd rfl hv
        | some v =>
            right
            rfl

/-- Witness for C6: the neither-given and the both-given configurations. -/
theorem C6_mutual_exclusion_witness :
    (runKeypairTransform (fun _ => none) Format.Bytes none none = KtResult.usage
        ∨ runKeypairTransform (fun _ => none) Format.Bytes none none = KtResult.helpShown)
      ∧ (runKeypairTransform (fun _ => none) Format.Bytes (some ("p.json".data))
            (some ("[1]".data)) = KtResult.usage
        ∨ runKeypairTransform (fun _ => none) Format.Bytes (some ("p.json".data))
            (some ("[1]".data)) = KtResult.helpShown) :=
  ⟨C6_mutual_exclusion (fun _ => none) Format.Bytes none none (Or.inl ⟨rfl, rfl⟩),
   C6_mutual_exclusion (fun _ => none) Format.Bytes (some ("p.json".data))
     (some ("[1]".data))
     (Or.inr ⟨Option.some_ne_none _, Option.some_ne_none _⟩)⟩

/-- C9: keypair-transform is deterministic — the outcome is a function of
the raw keypair text and the target format only: two runs over file systems
that agree on the given path (and in particular any two runs with a literal
`--value`) produce identical results. -/
theorem C9_transform_deterministic (fs fs' : List Char → Option (List Char))
    (transform : Format) (path value : Option (List Char))
    (hagree : ∀ q, path = some q → fs q = fs' q) :
    runKeypairTransform fs transform path value
      = runKeypairTransform fs' transform path value := by
  cases path with
  | none => cases value <;> rfl
  | some p =>
      have hp : fs p = fs' p := hagree p rfl
      cases value with
      | none => simp [runKeypairTransform, read_keypair_file_as_str, hp]
      | some v => rfl

/-- Witness for C9: a run from a literal value is independent of the file
system. -/
theorem C9_transform_deterministic_witness :
    runKeypairTransform (fun _ => some ("[1]".data)) Format.Base58 none
        (some ("[1]".data))
      = runKeypairTransform (fun _ => none) Format.Base58 none (some ("[1]".data)) :=
  C9_transform_deterministic (fun _ => some ("[1]".data)) (fun _ => none)
    Format.Base58 none (some ("[1]".data)) (fun _ hq => nomatch hq)

/-- C10: whenever a keypair file is read (`--path` or `--signer`), the raw
text handed to the keypair codec is the file's entire contents verbatim —
the transform handler behaves as `keypairTransformCore` on exactly the
contents, and the signer step decodes exactly the contents, with no
trimming or normalization applied. -/
theorem C10_file_contents_verbatim (fs : List Char → Option (List Char))
    (p c : List Char) (transform : Format) (sign : Keypair → Message → Sig64)
    (format : Option Format) (tx : Transaction) (hfs : fs p = some c) :
    (runKeypairTransform fs transform (some p) none
        = match keypairTransformCore c transform with
          | none => KtResult.panicked
          | some out => KtResult.output out)
      ∧ (signerStep sign fs (some p) format tx).2 = sigResultOfRaw sign c format tx := by
  constructor
  · cases hc : keypairTransformCore c transform with
    | none => simp [runKeypairTransform, read_keypair_file_as_str, hfs, hc]
    | some out => simp [runKeypairTransform, read_keypair_file_as_str, hfs, hc]
  · cases hck : create_keypair c
        (match format with
         | some f => f
         | none => Format.Bytes) with
    | none => simp [signerStep, read_keypair_file_as_str, sigResultOfRaw, hfs, hck]
    | some kp =>
        cases hps : psign sign tx kp tx.message.recent_blockhash with
        | none =>
            simp [signerStep, read_keypair_file_as_str, sigResultOfRaw, hfs, hck, hps]
        | some tx2 =>
            simp [signerStep, read_keypair_file_as_str, sigResultOfRaw, hfs, hck, hps]

/-- Witness for C10: a file whose contents carry a trailing newline is
handed to the codec with the newline intact. -/
theorem C10_file_contents_verbatim_witness :
    (runKeypairTransform (fun _ => some ("[1]\n".data)) Format.Base58
        (some ("p.json".data)) none
        = match keypairTransformCore ("[1]\n".data) Format.Base58 with
          | none => KtResult.panicked
          | some out => KtResult.output out)
      ∧ (signerStep (fun _ _ => []) (fun _ => some ("[1]\n".data))
            (some ("p.json".data)) none txSample).2
        = sigResultOfRaw (fun _ _ => []) ("[1]\n".data) none txSample :=
  C10_file_contents_verbatim (fun _ => some ("[1]\n".data)) ("p.json".data)
    ("[1]\n".data) Format.Base58 (fun _ _ => []) none txSample rfl

/-- C3: an invocation that reaches the submission step exits successfully
whatever the node answers; the trace ends with the one network submission
followed by exactly the printed result line for the node's answer. -/
theorem C3_submission_never_changes_exit (deser : List Nat → Option Transaction)
    (sign : Keypair → Message → Sig64) (fs : List Char → Option (List Char))
    (submit : Transaction → SubmitOutcome) (url transaction : List Char)
    (signer : Option (List Char)) (format : Option Format)
    (bs : List Nat) (tx : Transaction) (evs1 : List Event) (tx2 : Transaction)
    (hb : base64_decode transaction = some bs) (hd : deser bs = some tx)
    (hs : signerStep sign fs signer format tx = (evs1, some tx2)) :
    (transactionSend deser sign fs submit url transaction signer format).2
        = RunStatus.exitSuccess
      ∧ ∃ evs0, (transactionSend deser sign fs submit url transaction signer format).1
          = evs0 ++ [Event.networkSubmit tx2,
              Event.printedLine (resultLine (submit tx2))] := by
  cases hr : submit tx2 with
  | success sig =>
      constructor
      · simp [transactionSend, hb, hd, hs, hr]
      · refine ⟨[Event.printedLine (OutLine.rpcClientUrl (normalize_to_url_if_moniker url)),
            Event.printedLine (OutLine.decodedTx tx)] ++ evs1
            ++ [Event.printedLine OutLine.sendingTx], ?_⟩
        simp [transactionSend, hb, hd, hs, hr, resultLine]
  | failure err =>
      constructor
      · simp [transactionSend, hb, hd, hs, hr]
      · refine ⟨[Event.printedLine (OutLine.rpcClientUrl (normalize_to_url_if_moniker url)),
            Event.printedLine (OutLine.decodedTx tx)] ++ evs1
            ++ [Event.printedLine OutLine.sendingTx], ?_⟩
        simp [transactionSend, hb, hd, hs, hr, resultLine]

/-- Witness for C3: a concrete send reaching submission, under a node that
accepts and a node that rejects; the exit status is success either way. -/
theorem C3_submission_never_changes_exit_witness :
    ((transactionSend (fun _ => some txSample) (fun _ _ => []) (fun _ => none)
          (fun _ => SubmitOutcome.success (List.replicate 64 7)) ("d".data) ("AA==".data)
          none none).2 = RunStatus.exitSuccess
      ∧ ∃ evs0, (transactionSend (fun _ => some txSample) (fun _ _ => []) (fun _ => none)
          (fun _ => SubmitOutcome.success (List.replicate 64 7)) ("d".data) ("AA==".data)
          none none).1
          = evs0 ++ [Event.networkSubmit txSample,
              Event.printedLine (resultLine ((fun _ => SubmitOutcome.success
                (List.replicate 64 7)) txSample))])
      ∧ ((transactionSend (fun _ => some txSample) (fun _ _ => []) (fun _ => none)
          (fun _ => SubmitOutcome.failure ("node rejected".data)) ("d".data) ("AA==".data)
          none none).2 = RunStatus.exitSuccess
      ∧ ∃ evs0, (transactionSend (fun _ => some txSample) (fun _ _ => []) (fun _ => none)
          (fun _ => SubmitOutcome.failure ("node rejected".data)) ("d".data) ("AA==".data)
          none none).1
          = evs0 ++ [Event.networkSubmit txSample,
              Event.printedLine (resultLine ((fun _ => SubmitOutcome.failure
                ("node rejected".data)) txSample))]) :=
  ⟨C3_submission_never_changes_exit (fun _ => some txSample) (fun _ _ => [])
      (fun _ => none) (fun _ => SubmitOutcome.success (List.replicate 64 7))
      ("d".data) ("AA==".data) none none [0] txSample [] txSample
      (by decide) rfl rfl,
   C3_submission_never_changes_exit (fun _ => some txSample) (fun _ _ => [])
      (fun _ => none) (fun _ => SubmitOutcome.failure ("node rejected".data))
      ("d".data) ("AA==".data) none none [0] txSample [] txSample
      (by decide) rfl rfl⟩

/-- C4: if the `--transaction` argument is not valid base64, or its bytes do
not deserialize to a transaction, the invocation panics at the decode step
and the trace contains no network submission. -/
theorem C4_malformed_transaction_aborts (deser : List Nat → Option Transaction)
    (sign : Keypair → Message → Sig64) (fs : List Char → Option (List Char))
    (submit : Transaction → SubmitOutcome) (url transaction : List Char)
    (signer : Option (List Char)) (format : Option Format)
    (h : base64_decode transaction = none
      ∨ ∃ bs, base64_decode transaction = some bs ∧ deser bs = none) :
    (transactionSend deser sign fs submit url transaction signer format).2
        = RunStatus.panicked
      ∧ submittedTxs
          (transactionSend deser sign fs submit url transaction signer format).1
        = [] := by
  rcases h with h1 | ⟨bs, h1, h2⟩
  · constructor <;> simp [transactionSend, h1, submittedTxs]
  · constructor <;> simp [transactionSend, h1, h2, submittedTxs]

/-- Witness for C4: `"!!!"` is not base64; the run panics and nothing is
submitted. -/
theorem C4_malformed_transaction_aborts_witness :
    (transactionSend (fun _ => some txSample) (fun _ _ => []) (fun _ => none)
        (fun _ => SubmitOutcome.success []) ("d".data) ("!!!".data) none none).2
        = RunStatus.panicked
      ∧ submittedTxs (transactionSend (fun _ => some txSample) (fun _ _ => [])
          (fun _ => none) (fun _ => SubmitOutcome.success []) ("d".data) ("!!!".data)
          none none).1 = [] :=
  C4_malformed_transaction_aborts (fun _ => some txSample) (fun _ _ => [])
    (fun _ => none) (fun _ => SubmitOutcome.success []) ("d".data) ("!!!".data)
    none none (Or.inl (by decide))

/-- C7: without `--signer`, the decoded envelope is submitted byte-for-byte
unmodified: the only network submission in the trace is exactly the
deserialized transaction. -/
theorem C7_no_signer_submits_unmodified (deser : List Nat → Option Transaction)
    (sign : Keypair → Message → Sig64) (fs : List Char → Option (List Char))
    (submit : Transaction → SubmitOutcome) (url transaction : List Char)
    (format : Option Format) (bs : List Nat) (tx : Transaction)
    (hb : base64_decode transaction = some bs) (hd : deser bs = some tx) :
    submittedTxs (transactionSend deser sign fs submit url transaction none format).1
      = [tx] := by
  have hstep : signerStep sign fs none format tx = ([], some tx) := rfl
  cases hr : submit tx with
  | success sig => simp [transactionSend, hb, hd, hstep, hr, submittedTxs]
  | failure err => simp [transactionSend, hb, hd, hstep, hr, submittedTxs]

/-- Witness for C7 at a concrete valid base64 input. -/
theorem C7_no_signer_submits_unmodified_witness :
    submittedTxs (transactionSend (fun _ => some txSample) (fun _ _ => [])
        (fun _ => none) (fun _ => SubmitOutcome.failure ("err".data)) ("d".data)
        ("AA==".data) none none).1 = [txSample] :=
  C7_no_signer_submits_unmodified (fun _ => some txSample) (fun _ _ => [])
    (fun _ => none) (fun _ => SubmitOutcome.failure ("err".data)) ("d".data)
    ("AA==".data) none [0] txSample (by decide) rfl

/-- C8: with a signer given but `--format` omitted, the signer keypair is
decoded with the `Bytes` format: a run with `format = none` is identical,
events and status, to the same run with `format = some Bytes`. -/
theorem C8_default_format_bytes (deser : List Nat → Option Transaction)
    (sign : Keypair → Message → Sig64) (fs : List Char → Option (List Char))
    (submit : Transaction → SubmitOutcome) (url transaction : List Char)
    (signer : Option (List Char)) :
    transactionSend deser sign fs submit url transaction signer none
      = transactionSend deser sign fs submit url transaction signer
          (some Format.Bytes) := rfl

/-- C5: with a signer supplied, the signer step adds exactly one partial
signature — the signer's slot is set to the signature over the envelope's
own message, all other slots are unchanged — and the message, including its
embedded recent blockhash, is left untouched: `partial_sign` is invoked
with the envelope's own `recent_blockhash`, so no fresh blockhash is
fetched or substituted and the rehash branch never fires. -/
theorem C5_sign_adds_one_signature_embedded_blockhash
    (sign : Keypair → Message → Sig64) (fs : List Char → Option (List Char))
    (p : List Char) (format : Option Format) (tx : Transaction) (raw : List Char)
    (kp : Keypair) (evs : List Event) (tx2 : Transaction)
    (hraw : fs p = some raw)
    (hkp : create_keypair raw
        (match format with
         | some f => f
         | none => Format.Bytes) = some kp)
    (hrun : signerStep sign fs (some p) format tx = (evs, some tx2)) :
    tx2.message = tx.message
      ∧ ∃ i, i < tx.signatures.length
          ∧ tx2.signatures = tx.signatures.set i (sign kp tx.message)
          ∧ ∀ j, j ≠ i → tx2.signatures[j]? = tx.signatures[j]? := by
  simp only [signerStep, read_keypair_file_as_str, hraw, hkp] at hrun
  cases hps : psign sign tx kp tx.message.recent_blockhash with
  | none =>
      rw [hps] at hrun
      simp at hrun
  | some tx2' =>
      rw [hps] at hrun
      simp only [Prod.mk.injEq, Option.some.injEq] at hrun
      obtain ⟨-, htx2⟩ := hrun
      subst htx2
      unfold psign at hps
      cases hpos : get_signing_keypair_position tx.message (keypairPubkey kp) with
      | none =>
          rw [hpos] at hps
          simp at hps
      | some oi =>
          cases oi with
          | none =>
              simp only [hpos] at hps
              simp at hps
          | some i =>
              simp only [hpos] at hps
              rw [if_neg (show ¬(tx.message.recent_blockhash ≠ tx.message.recent_blockhash)
                from fun hcon => hcon rfl)] at hps
              by_cases hi : i < tx.signatures.length
              · rw [if_pos hi] at hps
                have htx2 := Option.some.inj hps
                subst htx2
                refine ⟨rfl, i, hi, rfl, ?_⟩
                intro j hj
                exact List.getElem?_set_ne (Ne.symm hj)
              · rw [if_neg hi] at hps
                simp at hps

/-- `txSample` after the sample signer wrote its one signature slot. -/
def txSampleSigned : Transaction :=
  { txSample with signatures := [List.replicate 64 9] }

set_option maxRecDepth 8000 in
/-- Witness for C5: a concrete signer step on `txSample` sets exactly slot
zero and leaves the message untouched. -/
theorem C5_sign_adds_one_signature_embedded_blockhash_witness :
    txSampleSigned.message = txSample.message
      ∧ ∃ i, i < txSample.signatures.length
          ∧ txSampleSigned.signatures
            = txSample.signatures.set i
                ((fun _ _ => List.replicate 64 9) kpSample txSample.message)
          ∧ ∀ j, j ≠ i → txSampleSigned.signatures[j]? = txSample.signatures[j]? :=
  C5_sign_adds_one_signature_embedded_blockhash (fun _ _ => List.replicate 64 9)
    (fun _ => some (renderByteArray kpSample)) ("signer.json".data) none txSample
    (renderByteArray kpSample) kpSample
    [Event.fileRead ("signer.json".data) (renderByteArray kpSample),
     Event.printedLine (OutLine.readKeypairRaw (renderByteArray kpSample)),
     Event.printedLine (OutLine.signedTx txSampleSigned)]
    txSampleSigned rfl (by decide) (by decide)
